import Mathlib

/-!
Verification of the CNF/DNF calculator (`src/index.js`).

The development shallowly embeds the pipeline of the program:
tokenizer → recursive-descent parser → AST evaluator → variable
collector → truth-table enumerator → normal-form deriver, and proves
the specification claims about it.

JavaScript conventions modelled explicitly:
* a variable lookup in an object that misses returns `undefined`; we
  model evaluator values as `Option Bool` with `none` for `undefined`,
  and `jsTruthy` for JavaScript truthiness coercion;
* `a && b` returns `a` when `a` is falsy and `b` otherwise, `a || b`
  returns `a` when `a` is truthy and `b` otherwise, `!a` and `===`
  always produce booleans;
* `Boolean((i >> k) & 1)` is `decide ((i >>> k) &&& 1 = 1)`;
* numbers are modelled as exact naturals, per the enumeration contract
  of the spec (row index `i`, bit `n - j - 1` of `i`); IEEE-double and
  32-bit-shift artifacts of enormous row counts are out of scope.
-/

namespace CnfDnfCalc

/-- Token of the lexer: `{type: "paren" | "operator" | "variable", value}`.
The three constructors model the `type` tag, the payload the `value`. -/
inductive Token where
  | paren (value : String)
  | operator (value : String)
  | tvar (value : String)
deriving DecidableEq, Repr

/-- Lexer failure: `throw new Error("Unknown token at position i: 'c'")`.
`outOfFuel` is an artifact of the fuel-based embedding of the scanning
loop; the entry point supplies enough fuel that it never fires. -/
inductive LexErr where
  | unknownToken (pos : Nat) (c : Char)
  | outOfFuel
deriving DecidableEq, Repr

/-- Parser failures of `src/index.js` (`Unexpected end of input`,
`Unexpected token: v`, `Expected ')'`).  `outOfFuel` is an artifact of
the fuel-based embedding of the recursive descent; the entry point
supplies enough fuel that it never fires on the inputs of the theorems
below. -/
inductive ParseErr where
  | unexpectedEndOfInput
  | unexpectedToken (t : Token)
  | expectedCloseParen
  | outOfFuel
deriving DecidableEq, Repr

/-- A typed pipeline error is either a lexer or a parser error. -/
inductive PipelineErr where
  | lex (e : LexErr)
  | parse (e : ParseErr)
deriving DecidableEq, Repr

/-- AST node (`var` / `not` / `and` / `or` / `implies` / `equiv`),
mirroring the tagged objects built by the parser. -/
inductive ASTNode where
  | var (value : String)
  | not (operand : ASTNode)
  | and (left right : ASTNode)
  | or (left right : ASTNode)
  | implies (left right : ASTNode)
  | equiv (left right : ASTNode)
deriving DecidableEq, Repr

/-- JavaScript `/\s/`: ASCII whitespace, NBSP, the Unicode `Zs`
category, line/paragraph separators and the byte-order mark. -/
def jsWhitespace (c : Char) : Bool :=
  let n := c.toNat
  n = 0x09 || n = 0x0a || n = 0x0b || n = 0x0c || n = 0x0d || n = 0x20 ||
  n = 0xa0 || n = 0x1680 || (0x2000 ≤ n && n ≤ 0x200a) ||
  n = 0x2028 || n = 0x2029 || n = 0x202f || n = 0x205f || n = 0x3000 || n = 0xfeff

/-- `isParenthesis`: the character is `(` or `)`. -/
def isParenthesisChar (c : Char) : Bool :=
  c == '(' || c == ')'

/-- `isNotOperator`: the character is `~`, `!` or `¬`. -/
def isNotOperatorChar (c : Char) : Bool :=
  c == '~' || c == '!' || c == '¬'

/-- `isAndOperator`: the character is `&` or `∧`. -/
def isAndOperatorChar (c : Char) : Bool :=
  c == '&' || c == '∧'

/-- `isOrOperator`: the character is `|` or `∨`. -/
def isOrOperatorChar (c : Char) : Bool :=
  c == '|' || c == '∨'

/-- `isImpliedOperator`: `input[i]` is `-` or `=` and the two-character
slice is `->` or `=>`; equivalently the next two characters are
`-`/`=` followed by `>`. -/
def isImpliedOperator : List Char → Bool
  | c1 :: c2 :: _ => (c1 == '-' || c1 == '=') && c2 == '>'
  | _ => false

/-- `isIfAndOnlyIfOperator`: `input[i]` is `<` and the three-character
slice is `<->` or `<=>`. -/
def isIfAndOnlyIfOperator : List Char → Bool
  | c1 :: c2 :: c3 :: _ => c1 == '<' && (c2 == '-' || c2 == '=') && c3 == '>'
  | _ => false

/-- `isStartOfVariable`: JavaScript `/[A-Za-z]/`. -/
def isLetterChar (c : Char) : Bool :=
  ('A' ≤ c && c ≤ 'Z') || ('a' ≤ c && c ≤ 'z')

/-- Identifier continuation, JavaScript `/[A-Za-z0-9_]/`. -/
def isIdentChar (c : Char) : Bool :=
  isLetterChar c || ('0' ≤ c && c ≤ '9') || c == '_'

/-- The scanning loop of `tokenize`, positioned at character index `i`
with the remaining characters as a list.  Each branch mirrors one
`if ... continue` of the source, in the same priority order.  Every
iteration consumes at least one character, so fuel
`length + 1` can never run out. -/
def tokenizeAux : Nat → List Char → Nat → Except LexErr (List Token)
  | 0, _, _ => .error .outOfFuel
  | _ + 1, [], _ => .ok []
  | fuel + 1, c :: cs, i =>
    if jsWhitespace c then
      tokenizeAux fuel cs (i + 1)
    else if isParenthesisChar c then
      (tokenizeAux fuel cs (i + 1)).map (fun ts => .paren (String.singleton c) :: ts)
    else if isNotOperatorChar c || isAndOperatorChar c || isOrOperatorChar c then
      (tokenizeAux fuel cs (i + 1)).map (fun ts => .operator (String.singleton c) :: ts)
    else if isImpliedOperator (c :: cs) then
      (tokenizeAux fuel (cs.drop 1) (i + 2)).map (fun ts => .operator "->" :: ts)
    else if isIfAndOnlyIfOperator (c :: cs) then
      (tokenizeAux fuel (cs.drop 2) (i + 3)).map (fun ts => .operator "<->" :: ts)
    else if isLetterChar c then
      -- `getVarName` collects the maximal run of identifier characters
      -- starting at `i`; its first character is the letter `c`.
      let tail := cs.takeWhile isIdentChar
      (tokenizeAux fuel (cs.drop tail.length) (i + 1 + tail.length)).map
        (fun ts => .tvar (String.mk (c :: tail)) :: ts)
    else
      .error (.unknownToken i c)

/-- `tokenize`: scan the whole input string. -/
def tokenize (s : String) : Except LexErr (List Token) :=
  tokenizeAux (s.data.length + 1) s.data 0

/-- `Parser.isNext(t, val)` on the remaining token list: the next token
exists and matches type and value. -/
def isNextTok (ts : List Token) (t : Token) : Bool :=
  match ts with
  | [] => false
  | t' :: _ => t' == t

mutual

/-- `parseIfAndOnlyIf`: parse an `implies` operand, then the `<->` loop. -/
def parseIfAndOnlyIf : Nat → List Token → Except ParseErr (ASTNode × List Token)
  | 0, _ => .error .outOfFuel
  | f + 1, ts => do
    let (left, rest) ← parseImplies f ts
    parseIfAndOnlyIfLoop f left rest

/-- The `while (parser.isNext('operator', '<->'))` loop of `parseIfAndOnlyIf`. -/
def parseIfAndOnlyIfLoop : Nat → ASTNode → List Token → Except ParseErr (ASTNode × List Token)
  | 0, _, _ => .error .outOfFuel
  | f + 1, left, ts =>
    if isNextTok ts (.operator "<->") then do
      let (right, rest) ← parseImplies f ts.tail
      parseIfAndOnlyIfLoop f (.equiv left right) rest
    else
      .ok (left, ts)

/-- `parseImplies`: parse an `or` operand, then the `->` loop. -/
def parseImplies : Nat → List Token → Except ParseErr (ASTNode × List Token)
  | 0, _ => .error .outOfFuel
  | f + 1, ts => do
    let (left, rest) ← parseOr f ts
    parseImpliesLoop f left rest

/-- The `while (parser.isNext('operator', '->'))` loop of `parseImplies`. -/
def parseImpliesLoop : Nat → ASTNode → List Token → Except ParseErr (ASTNode × List Token)
  | 0, _, _ => .error .outOfFuel
  | f + 1, left, ts =>
    if isNextTok ts (.operator "->") then do
      let (right, rest) ← parseOr f ts.tail
      parseImpliesLoop f (.implies left right) rest
    else
      .ok (left, ts)

/-- `parseOr`: parse an `and` operand, then the `|` loop. -/
def parseOr : Nat → List Token → Except ParseErr (ASTNode × List Token)
  | 0, _ => .error .outOfFuel
  | f + 1, ts => do
    let (left, rest) ← parseAnd f ts
    parseOrLoop f left rest

/-- The `while (parser.isNext('operator', '|'))` loop of `parseOr`. -/
def parseOrLoop : Nat → ASTNode → List Token → Except ParseErr (ASTNode × List Token)
  | 0, _, _ => .error .outOfFuel
  | f + 1, left, ts =>
    if isNextTok ts (.operator "|") then do
      let (right, rest) ← parseAnd f ts.tail
      parseOrLoop f (.or left right) rest
    else
      .ok (left, ts)

/-- `parseAnd`: parse a `not` operand, then the `&` loop. -/
def parseAnd : Nat → List Token → Except ParseErr (ASTNode × List Token)
  | 0, _ => .error .outOfFuel
  | f + 1, ts => do
    let (left, rest) ← parseNot f ts
    parseAndLoop f left rest

/-- The `while (parser.isNext('operator', '&'))` loop of `parseAnd`. -/
def parseAndLoop : Nat → ASTNode → List Token → Except ParseErr (ASTNode × List Token)
  | 0, _, _ => .error .outOfFuel
  | f + 1, left, ts =>
    if isNextTok ts (.operator "&") then do
      let (right, rest) ← parseNot f ts.tail
      parseAndLoop f (.and left right) rest
    else
      .ok (left, ts)

/-- `parseNot`: `~` is prefix and right-associative via self-recursion. -/
def parseNot : Nat → List Token → Except ParseErr (ASTNode × List Token)
  | 0, _ => .error .outOfFuel
  | f + 1, ts =>
    if isNextTok ts (.operator "~") then do
      let (operand, rest) ← parseNot f ts.tail
      .ok (.not operand, rest)
    else
      parsePrimary f ts

/-- `parsePrimary`: a variable, or a parenthesized sub-expression that
re-enters the grammar at the `parseIfAndOnlyIf` level. -/
def parsePrimary : Nat → List Token → Except ParseErr (ASTNode × List Token)
  | 0, _ => .error .outOfFuel
  | _ + 1, [] => .error .unexpectedEndOfInput
  | f + 1, t :: rest =>
    match t with
    | .tvar name => .ok (.var name, rest)
    | .paren "(" => do
      let (expr, rest') ← parseIfAndOnlyIf f rest
      if isNextTok rest' (.paren ")") then
        .ok (expr, rest'.tail)
      else
        .error .expectedCloseParen
    | _ => .error (.unexpectedToken t)

end

/-- Fuel for the embedded parser.  Every parse function consumes one
unit per call; a descent through the six precedence levels costs six
units and every further descent first consumes at least one token, so
this amount can never be exhausted. -/
def parseFuel (tokens : List Token) : Nat :=
  8 * tokens.length + 8

/-- `parseExpression`: run the parser from the lowest precedence level
and fail on leftover tokens (`Unexpected token: v`). -/
def parseExpression (tokens : List Token) : Except ParseErr ASTNode := do
  let (expr, rest) ← parseIfAndOnlyIf (parseFuel tokens) tokens
  match rest with
  | [] => .ok expr
  | t :: _ => .error (.unexpectedToken t)

/-- The front half of `generateTableAndNF`: tokenize, then parse,
surfacing the first error as a typed pipeline error. -/
def pipelineAST (s : String) : Except PipelineErr ASTNode :=
  match tokenize s with
  | .error e => .error (.lex e)
  | .ok ts =>
    match parseExpression ts with
    | .error e => .error (.parse e)
    | .ok ast => .ok ast

/-- A JavaScript object mapping variable names to booleans, as an
association list keyed in insertion order. -/
abbrev Assignment := List (String × Bool)

/-- JavaScript truthiness of an evaluator value: `undefined` (`none`)
is falsy, a boolean is itself. -/
def jsTruthy : Option Bool → Bool
  | some b => b
  | none => false

/-- `evaluateAST(ast, vars)`.  `vars[name]` is an association-list
lookup yielding `none` (that is, `undefined`) when the key is missing;
`&&`/`||` return one of their operands, `!` and `===` return booleans,
exactly as in JavaScript. -/
def evaluateAST : ASTNode → Assignment → Option Bool
  | .var name, vars => vars.lookup name
  | .not operand, vars => some (!(jsTruthy (evaluateAST operand vars)))
  | .and l r, vars =>
    let lv := evaluateAST l vars
    if jsTruthy lv then evaluateAST r vars else lv
  | .or l r, vars =>
    let lv := evaluateAST l vars
    if jsTruthy lv then lv else evaluateAST r vars
  | .implies l r, vars =>
    let nl : Option Bool := some (!(jsTruthy (evaluateAST l vars)))
    if jsTruthy nl then nl else evaluateAST r vars
  | .equiv l r, vars => some (evaluateAST l vars == evaluateAST r vars)

/-- The `traverse` of `getVariables`: variable names in visit order
(left subtree before right subtree), duplicates included. -/
def collectVars : ASTNode → List String
  | .var name => [name]
  | .not operand => collectVars operand
  | .and l r => collectVars l ++ collectVars r
  | .or l r => collectVars l ++ collectVars r
  | .implies l r => collectVars l ++ collectVars r
  | .equiv l r => collectVars l ++ collectVars r

/-- The comparison of JavaScript's default `Array.prototype.sort`:
lexicographic on code units. -/
def charListLe : List Char → List Char → Bool
  | [], _ => true
  | _ :: _, [] => false
  | c1 :: t1, c2 :: t2 =>
    if c1.toNat < c2.toNat then true
    else if c2.toNat < c1.toNat then false
    else charListLe t1 t2

/-- String comparison of the default sort. -/
def jsStringLe (a b : String) : Bool :=
  charListLe a.data b.data

/-- `getVariables`: the distinct variable names of the AST
(`new Set`), sorted (`Array.from(vars).sort()`, whose default
comparator is `jsStringLe`). -/
def getVariables (ast : ASTNode) : List String :=
  ((collectVars ast).dedup).insertionSort fun a b => jsStringLe a b

/-- The assignment built for row `i`:
`assignment[variables[j]] = Boolean((i >> (variables.length - j - 1)) & 1)`. -/
def rowAssignment (vars : List String) (i : Nat) : Assignment :=
  vars.enum.map fun p =>
    (p.2, decide ((i >>> (vars.length - p.1 - 1)) &&& 1 = 1))

/-- The row indices of the enumeration loop
`for (let i = numRows - 1; i >= 0; i--)` with `numRows = 2 ** n`. -/
def rowIndices (n : Nat) : List Nat :=
  (List.range (2 ^ n)).reverse

/-- The evaluation result of row `i`: `result = evaluateAST(ast, assignment)`,
used by the loop under JavaScript truthiness (`if (result)`). -/
def rowResult (ast : ASTNode) (vars : List String) (i : Nat) : Bool :=
  jsTruthy (evaluateAST ast (rowAssignment vars i))

/-- The enumerated truth table: one `(assignment, result)` row per
index, in the descending order of the loop. -/
def truthTable (ast : ASTNode) : List (Assignment × Bool) :=
  let vars := getVariables ast
  (rowIndices vars.length).map fun i =>
    (rowAssignment vars i, rowResult ast vars i)

/-- A literal `(name, negated)`: `v` is rendered as-is when `negated`
is false and as `¬v` when it is true. -/
abbrev Literal := String × Bool

/-- The DNF minterm of a true row:
`variables.map(v => assignment[v] ? v : ¬v)`. -/
def dnfClauseOf (vars : List String) (assignment : Assignment) : List Literal :=
  vars.map fun v =>
    if jsTruthy (assignment.lookup v) then (v, false) else (v, true)

/-- The CNF maxterm of a false row:
`variables.map(v => assignment[v] ? ¬v : v)`. -/
def cnfClauseOf (vars : List String) (assignment : Assignment) : List Literal :=
  vars.map fun v =>
    if jsTruthy (assignment.lookup v) then (v, true) else (v, false)

/-- `dnfClauses`: one minterm per row whose result is true, in row order. -/
def dnfClauses (ast : ASTNode) : List (List Literal) :=
  let vars := getVariables ast
  ((rowIndices vars.length).filter (rowResult ast vars)).map fun i =>
    dnfClauseOf vars (rowAssignment vars i)

/-- `cnfClauses`: one maxterm per row whose result is false, in row order. -/
def cnfClauses (ast : ASTNode) : List (List Literal) :=
  let vars := getVariables ast
  ((rowIndices vars.length).filter fun i => !(rowResult ast vars i)).map fun i =>
    cnfClauseOf vars (rowAssignment vars i)

/-- A derived normal form: either a joined non-empty clause list, or
the sentinel constant `False` (for a contradiction's DNF) or `True`
(for a tautology's CNF). -/
inductive NF where
  | sentinelFalse
  | sentinelTrue
  | clauses (cs : List (List Literal))
deriving DecidableEq, Repr

/-- `dnfClauses.length > 0 ? dnfClauses.join(' ∨ ') : 'False'`. -/
def dnf (ast : ASTNode) : NF :=
  if (dnfClauses ast).length > 0 then .clauses (dnfClauses ast) else .sentinelFalse

/-- `cnfClauses.length > 0 ? cnfClauses.join(' ∧ ') : 'True'`. -/
def cnf (ast : ASTNode) : NF :=
  if (cnfClauses ast).length > 0 then .clauses (cnfClauses ast) else .sentinelTrue

/-- Evaluate one literal under an assignment. -/
def evalLiteral (assignment : Assignment) (lit : Literal) : Bool :=
  if lit.2 then !(jsTruthy (assignment.lookup lit.1))
  else jsTruthy (assignment.lookup lit.1)

/-- Evaluate a derived DNF: OR of minterms, each the AND of its
literals; the sentinel `False` is false, the sentinel `True` true. -/
def evalDNF (assignment : Assignment) : NF → Bool
  | .sentinelFalse => false
  | .sentinelTrue => true
  | .clauses cs => cs.any fun c => c.all (evalLiteral assignment)

/-- Evaluate a derived CNF: AND of maxterms, each the OR of its
literals; the sentinel `False` is false, the sentinel `True` true. -/
def evalCNF (assignment : Assignment) : NF → Bool
  | .sentinelFalse => false
  | .sentinelTrue => true
  | .clauses cs => cs.all fun c => c.any (evalLiteral assignment)

/-- The total assignment over a variable list induced by a valuation
function. -/
def assignOf (vars : List String) (f : String → Bool) : Assignment :=
  vars.map fun v => (v, f v)

/-- The row index whose assignment realizes the valuation `f`:
the first variable is the most significant bit. -/
def assignmentIndex (f : String → Bool) : List String → Nat
  | [] => 0
  | v :: vs => (if f v then 2 ^ vs.length else 0) + assignmentIndex f vs

/-- Whether the AST contains at least one `var` leaf. -/
def hasVar : ASTNode → Bool
  | .var _ => true
  | .not operand => hasVar operand
  | .and l r => hasVar l || hasVar r
  | .or l r => hasVar l || hasVar r
  | .implies l r => hasVar l || hasVar r
  | .equiv l r => hasVar l || hasVar r

/-- Structural-recursion characterization of `rowAssignment`: the head
variable receives the bit whose position is the number of remaining
variables.  Proved equal to `rowAssignment` below; used for induction. -/
def rowAssignmentRec : List String → Nat → Assignment
  | [], _ => []
  | v :: vs, i => (v, i.testBit vs.length) :: rowAssignmentRec vs i

/-- Disjunction of a list of variables (empty list unused). -/
def bigOr : List String → ASTNode
  | [] => .var "X"
  | [v] => .var v
  | v :: vs => .or (.var v) (bigOr vs)

/-- Sixty-four distinct variable names. -/
def varNames64 : List String :=
  (List.range 64).map fun k => "V" ++ toString k

/-- A formula with sixty-four distinct variables, far above any
conservative enumeration cap. -/
def ast64 : ASTNode := bigOr varNames64

/-! ### Helper lemmas -/

theorem bool_eq_of_iff {a b : Bool} (h : a = true ↔ b = true) : a = b := by
  cases a <;> cases b <;> simp_all

/-- `Boolean((i >> k) & 1)` is exactly `Nat.testBit i k`. -/
theorem boolBit_eq_testBit (i k : Nat) :
    decide ((i >>> k) &&& 1 = 1) = i.testBit k := by
  rw [Nat.testBit_to_div_mod, Nat.and_one_is_mod, Nat.shiftRight_eq_div_pow]

theorem rowAssignment_eq_rec (vs : List String) (i : Nat) :
    rowAssignment vs i = rowAssignmentRec vs i := by
  induction vs with
  | nil => rfl
  | cons v vs ih =>
    show List.map _ (List.enum (v :: vs)) = _
    rw [List.enum_cons']
    simp only [List.map_cons, List.map_map, rowAssignmentRec]
    refine congrArg₂ List.cons ?_ ?_
    · have h1 : (v :: vs).length - 0 - 1 = vs.length := by simp
      rw [h1, boolBit_eq_testBit]
    · rw [← ih]
      unfold rowAssignment
      refine List.map_congr_left fun p _ => ?_
      have h2 : (v :: vs).length - (p.1 + 1) - 1 = vs.length - p.1 - 1 := by
        simp only [List.length_cons]
        omega
      simp [h2]

theorem rowAssignmentRec_mod (vs : List String) (i : Nat) :
    rowAssignmentRec vs (i % 2 ^ vs.length) = rowAssignmentRec vs i := by
  induction vs generalizing i with
  | nil => rfl
  | cons v vs ih =>
    simp only [rowAssignmentRec, List.length_cons]
    refine congrArg₂ List.cons ?_ ?_
    · rw [Nat.testBit_mod_two_pow]
      simp
    · calc rowAssignmentRec vs (i % 2 ^ (vs.length + 1))
          = rowAssignmentRec vs (i % 2 ^ (vs.length + 1) % 2 ^ vs.length) := (ih _).symm
        _ = rowAssignmentRec vs (i % 2 ^ vs.length) := by
            rw [Nat.mod_mod_of_dvd _ (pow_dvd_pow 2 (Nat.le_succ _))]
        _ = rowAssignmentRec vs i := ih i

theorem rowAssignmentRec_inj (vs : List String) {i i' : Nat}
    (hi : i < 2 ^ vs.length) (hi' : i' < 2 ^ vs.length)
    (h : rowAssignmentRec vs i = rowAssignmentRec vs i') : i = i' := by
  induction vs generalizing i i' with
  | nil =>
    simp only [List.length_nil, pow_zero, Nat.lt_one_iff] at hi hi'
    omega
  | cons v vs ih =>
    simp only [List.length_cons, pow_succ] at hi hi'
    simp only [rowAssignmentRec, List.cons.injEq, Prod.mk.injEq, true_and] at h
    obtain ⟨hbit, htail⟩ := h
    have hpos : 0 < 2 ^ vs.length := Nat.pos_pow_of_pos _ (by omega)
    have hmod : i % 2 ^ vs.length = i' % 2 ^ vs.length := by
      refine ih (Nat.mod_lt _ hpos) (Nat.mod_lt _ hpos) ?_
      rw [rowAssignmentRec_mod, rowAssignmentRec_mod]
      exact htail
    have hdi : i / 2 ^ vs.length < 2 := by
      rw [Nat.div_lt_iff_lt_mul hpos]
      omega
    have hdi' : i' / 2 ^ vs.length < 2 := by
      rw [Nat.div_lt_iff_lt_mul hpos]
      omega
    have hc1 : i / 2 ^ vs.length = 0 ∨ i / 2 ^ vs.length = 1 := by
      cases Nat.lt_or_ge (i / 2 ^ vs.length) 1 with
      | inl h => exact Or.inl (Nat.lt_one_iff.mp h)
      | inr h => exact Or.inr (Nat.le_antisymm (Nat.lt_succ_iff.mp hdi) h)
    have hc2 : i' / 2 ^ vs.length = 0 ∨ i' / 2 ^ vs.length = 1 := by
      cases Nat.lt_or_ge (i' / 2 ^ vs.length) 1 with
      | inl h => exact Or.inl (Nat.lt_one_iff.mp h)
      | inr h => exact Or.inr (Nat.le_antisymm (Nat.lt_succ_iff.mp hdi') h)
    have hdiv : i / 2 ^ vs.length = i' / 2 ^ vs.length := by
      rw [Nat.testBit_to_div_mod, Nat.testBit_to_div_mod, decide_eq_decide] at hbit
      rw [Nat.mod_eq_of_lt hdi, Nat.mod_eq_of_lt hdi'] at hbit
      rcases hc1 with h1 | h1 <;> rcases hc2 with h2 | h2 <;>
        rw [h1, h2] at hbit ⊢ <;> simp_all
    have e1 := Nat.div_add_mod i (2 ^ vs.length)
    have e2 := Nat.div_add_mod i' (2 ^ vs.length)
    rw [← hdiv] at e2
    rcases hc1 with hc | hc
    · rw [hc, Nat.mul_zero, Nat.zero_add] at e1 e2
      rw [← e1, ← e2]
      exact hmod
    · rw [hc, Nat.mul_one] at e1 e2
      rw [← e1, ← e2, hmod]

theorem assignmentIndex_lt (f : String → Bool) (vs : List String) :
    assignmentIndex f vs < 2 ^ vs.length := by
  induction vs with
  | nil => simp [assignmentIndex]
  | cons v vs ih =>
    simp only [assignmentIndex, List.length_cons, pow_succ]
    cases f v <;> simp <;> omega

theorem rowAssignmentRec_assignmentIndex (f : String → Bool) (vs : List String) :
    rowAssignmentRec vs (assignmentIndex f vs) = assignOf vs f := by
  induction vs with
  | nil => rfl
  | cons v vs ih =>
    have hlo : assignmentIndex f vs < 2 ^ vs.length := assignmentIndex_lt f vs
    simp only [rowAssignmentRec, assignmentIndex, assignOf, List.map_cons]
    refine congrArg₂ List.cons ?_ ?_
    · rw [Nat.testBit_to_div_mod]
      cases hf : f v
      · simp only [hf, Bool.false_eq_true, if_false, Nat.zero_add]
        rw [Nat.div_eq_of_lt hlo]
        simp
      · simp only [hf, if_true]
        rw [Nat.add_div_left _ (Nat.pos_pow_of_pos _ (by omega)),
          Nat.div_eq_of_lt hlo]
        simp
    · rw [← rowAssignmentRec_mod]
      have hmod : ((if f v then 2 ^ vs.length else 0) + assignmentIndex f vs) % 2 ^ vs.length
          = assignmentIndex f vs := by
        cases f v <;> simp [Nat.add_mod_left, Nat.mod_eq_of_lt hlo]
      rw [hmod]
      exact ih

theorem lookup_assignOf (vs : List String) (f : String → Bool) (v : String) :
    (assignOf vs f).lookup v = if v ∈ vs then some (f v) else none := by
  induction vs with
  | nil => simp [assignOf]
  | cons u vs ih =>
    simp only [assignOf, List.map_cons, List.lookup_cons] at ih ⊢
    by_cases h : v = u
    · subst h
      simp
    · have hbeq : (v == u) = false := by simpa using h
      simp [hbeq, ih, h]

theorem assignOf_congr {vs : List String} {f g : String → Bool}
    (h : ∀ v ∈ vs, f v = g v) : assignOf vs f = assignOf vs g :=
  List.map_congr_left fun v hv => by rw [h v hv]

theorem assignOf_eq_iff {vs : List String} {f g : String → Bool} :
    assignOf vs f = assignOf vs g ↔ ∀ v ∈ vs, f v = g v := by
  constructor
  · intro h v hv
    induction vs with
    | nil => simp at hv
    | cons u vs ih =>
      simp only [assignOf, List.map_cons, List.cons.injEq, Prod.mk.injEq, true_and] at h
      rcases List.mem_cons.mp hv with rfl | hv'
      · exact h.1
      · exact ih h.2 hv'
  · exact assignOf_congr

/-- Every row assignment over a duplicate-free variable list is the
assignment induced by its own lookups. -/
theorem rowAssignmentRec_eq_assignOf (vs : List String) (hnd : vs.Nodup) (i : Nat) :
    rowAssignmentRec vs i
      = assignOf vs (fun v => jsTruthy ((rowAssignmentRec vs i).lookup v)) := by
  induction vs with
  | nil => rfl
  | cons u vs ih =>
    obtain ⟨hu, hnd'⟩ := List.nodup_cons.mp hnd
    simp only [rowAssignmentRec, assignOf, List.map_cons]
    refine congrArg₂ List.cons ?_ ?_
    · simp [jsTruthy]
    · have hskip : ∀ v ∈ vs,
          jsTruthy (((u, i.testBit vs.length) :: rowAssignmentRec vs i).lookup v)
            = jsTruthy ((rowAssignmentRec vs i).lookup v) := by
        intro v hv
        have hne : (v == u) = false := by
          simp only [beq_eq_false_iff_ne, ne_eq]
          exact fun hvu => hu (hvu ▸ hv)
        rw [List.lookup_cons]
        simp [hne]
      calc rowAssignmentRec vs i
          = assignOf vs (fun v => jsTruthy ((rowAssignmentRec vs i).lookup v)) :=
            ih hnd'
        _ = assignOf vs (fun v =>
              jsTruthy (((u, i.testBit vs.length) :: rowAssignmentRec vs i).lookup v)) :=
            assignOf_congr fun v hv => (hskip v hv).symm

/-- The keys of a row assignment are exactly the variable list. -/
theorem rowAssignmentRec_keys (vs : List String) (i : Nat) :
    (rowAssignmentRec vs i).map Prod.fst = vs := by
  induction vs with
  | nil => rfl
  | cons u vs ih => simp [rowAssignmentRec, ih]

theorem getVariables_nodup (ast : ASTNode) : (getVariables ast).Nodup :=
  (List.perm_insertionSort _ _).nodup_iff.mpr ((collectVars ast).nodup_dedup)

theorem mem_getVariables {ast : ASTNode} {v : String} :
    v ∈ getVariables ast ↔ v ∈ collectVars ast := by
  unfold getVariables
  rw [(List.perm_insertionSort _ _).mem_iff, List.mem_dedup]

theorem collectVars_ne_nil (ast : ASTNode) : collectVars ast ≠ [] := by
  induction ast <;> simp_all [collectVars]

theorem getVariables_ne_nil (ast : ASTNode) : getVariables ast ≠ [] := by
  intro h
  rcases List.exists_mem_of_ne_nil _ (collectVars_ne_nil ast) with ⟨v, hv⟩
  have : v ∈ getVariables ast := mem_getVariables.mpr hv
  simp [h] at this

/-- Totality of the evaluator: if every referenced variable has a
binding, evaluation produces a boolean, never `undefined`. -/
theorem evaluateAST_isSome (ast : ASTNode) (asg : Assignment)
    (h : ∀ v ∈ collectVars ast, (asg.lookup v).isSome) :
    (evaluateAST ast asg).isSome := by
  induction ast with
  | var name => exact h name (by simp [collectVars])
  | not a ih => simp [evaluateAST]
  | and l r ihl ihr =>
    have hl := ihl fun v hv => h v (by simp [collectVars, hv])
    have hr := ihr fun v hv => h v (by simp [collectVars, hv])
    simp only [evaluateAST]
    split
    · exact hr
    · exact hl
  | or l r ihl ihr =>
    have hl := ihl fun v hv => h v (by simp [collectVars, hv])
    have hr := ihr fun v hv => h v (by simp [collectVars, hv])
    simp only [evaluateAST]
    split
    · exact hl
    · exact hr
  | implies l r ihl ihr =>
    have hr := ihr fun v hv => h v (by simp [collectVars, hv])
    simp only [evaluateAST]
    split
    · simp
    · exact hr
  | equiv l r ihl ihr => simp [evaluateAST]

/-- The assignment induced by a valuation binds every variable of the
formula, so evaluation yields a genuine boolean. -/
theorem evaluateAST_assignOf_isSome (ast : ASTNode) (f : String → Bool) :
    ∃ b : Bool, evaluateAST ast (assignOf (getVariables ast) f) = some b := by
  have h : (evaluateAST ast (assignOf (getVariables ast) f)).isSome := by
    refine evaluateAST_isSome ast _ fun v hv => ?_
    rw [lookup_assignOf, if_pos (mem_getVariables.mpr hv)]
    rfl
  exact Option.isSome_iff_exists.mp h

theorem mem_rowIndices {n i : Nat} : i ∈ rowIndices n ↔ i < 2 ^ n := by
  simp [rowIndices]

theorem rowIndices_nodup (n : Nat) : (rowIndices n).Nodup := by
  simp [rowIndices, List.nodup_range]

theorem rowIndices_length (n : Nat) : (rowIndices n).length = 2 ^ n := by
  simp [rowIndices]

theorem all_map_general {α β : Type} (l : List α) (h : α → β) (p : β → Bool) :
    (l.map h).all p = l.all fun a => p (h a) := by
  induction l <;> simp_all

theorem any_map_general {α β : Type} (l : List α) (h : α → β) (p : β → Bool) :
    (l.map h).any p = l.any fun a => p (h a) := by
  induction l <;> simp_all

theorem all_congr_mem {α : Type} {l : List α} {p q : α → Bool}
    (h : ∀ a ∈ l, p a = q a) : l.all p = l.all q := by
  induction l with
  | nil => rfl
  | cons x xs ih =>
    simp only [List.all_cons]
    rw [h x (List.mem_cons_self x xs), ih fun a ha => h a (List.mem_cons_of_mem _ ha)]

theorem any_congr_mem {α : Type} {l : List α} {p q : α → Bool}
    (h : ∀ a ∈ l, p a = q a) : l.any p = l.any q := by
  induction l with
  | nil => rfl
  | cons x xs ih =>
    simp only [List.any_cons]
    rw [h x (List.mem_cons_self x xs), ih fun a ha => h a (List.mem_cons_of_mem _ ha)]

/-- A DNF minterm literal for variable `v`, built from the row valuation
`g` and evaluated under the valuation `f`, tests agreement at `v`. -/
theorem evalLiteral_dnf_point (vs : List String) (f g : String → Bool) {v : String}
    (hv : v ∈ vs) :
    evalLiteral (assignOf vs f)
        (if jsTruthy ((assignOf vs g).lookup v) then (v, false) else (v, true))
      = (f v == g v) := by
  rw [lookup_assignOf, if_pos hv]
  cases hg : g v <;> cases hf : f v <;>
    simp [evalLiteral, jsTruthy, lookup_assignOf, hv, hf]

/-- A CNF maxterm literal for variable `v` tests disagreement at `v`. -/
theorem evalLiteral_cnf_point (vs : List String) (f g : String → Bool) {v : String}
    (hv : v ∈ vs) :
    evalLiteral (assignOf vs f)
        (if jsTruthy ((assignOf vs g).lookup v) then (v, true) else (v, false))
      = (f v != g v) := by
  rw [lookup_assignOf, if_pos hv]
  cases hg : g v <;> cases hf : f v <;>
    simp [evalLiteral, jsTruthy, lookup_assignOf, hv, hf]

/-- The minterm built from the row of valuation `g` is satisfied by the
assignment of valuation `f` exactly when the two valuations agree on
every variable. -/
theorem dnfClause_matches (vs : List String) (f g : String → Bool) :
    ((dnfClauseOf vs (assignOf vs g)).all (evalLiteral (assignOf vs f)))
      = vs.all fun v => f v == g v := by
  unfold dnfClauseOf
  rw [all_map_general]
  exact all_congr_mem fun v hv => evalLiteral_dnf_point vs f g hv

theorem any_bne_eq_not_all_beq (vs : List String) (f g : String → Bool) :
    (vs.any fun v => f v != g v) = !(vs.all fun v => f v == g v) := by
  induction vs with
  | nil => rfl
  | cons u vs ih =>
    rw [List.any_cons, List.all_cons, Bool.not_and, ih]
    simp [bne]

/-- The maxterm built from the row of valuation `g` is satisfied by the
assignment of valuation `f` exactly when the two valuations disagree
somewhere. -/
theorem cnfClause_matches (vs : List String) (f g : String → Bool) :
    ((cnfClauseOf vs (assignOf vs g)).any (evalLiteral (assignOf vs f)))
      = !(vs.all fun v => f v == g v) := by
  unfold cnfClauseOf
  rw [any_map_general, ← any_bne_eq_not_all_beq]
  exact any_congr_mem fun v hv => evalLiteral_cnf_point vs f g hv

/-- Evaluating the derived DNF is evaluating its clause list (the
sentinel `False` agrees with the empty OR). -/
theorem evalDNF_dnf (ast : ASTNode) (asg : Assignment) :
    evalDNF asg (dnf ast) = (dnfClauses ast).any fun c => c.all (evalLiteral asg) := by
  unfold dnf
  rcases h : dnfClauses ast with _ | ⟨c, cs⟩ <;> simp [evalDNF]

/-- Evaluating the derived CNF is evaluating its clause list (the
sentinel `True` agrees with the empty AND). -/
theorem evalCNF_cnf (ast : ASTNode) (asg : Assignment) :
    evalCNF asg (cnf ast) = (cnfClauses ast).all fun c => c.any (evalLiteral asg) := by
  unfold cnf
  rcases h : cnfClauses ast with _ | ⟨c, cs⟩ <;> simp [evalCNF]

/-- Agreement of the valuation `f` with row `i` on every variable
holds exactly when `i` is the row index determined by `f`. -/
theorem all_match_eq_beq (ast : ASTNode) (f : String → Bool) {i : Nat}
    (hi : i < 2 ^ (getVariables ast).length) :
    ((getVariables ast).all fun v =>
        f v == jsTruthy ((rowAssignmentRec (getVariables ast) i).lookup v))
      = (i == assignmentIndex f (getVariables ast)) := by
  have hnd : (getVariables ast).Nodup := getVariables_nodup ast
  have hrep := rowAssignmentRec_eq_assignOf (getVariables ast) hnd i
  refine bool_eq_of_iff ?_
  simp only [List.all_eq_true, beq_iff_eq]
  constructor
  · intro h
    have heq : assignOf (getVariables ast) f
        = assignOf (getVariables ast)
            (fun v => jsTruthy ((rowAssignmentRec (getVariables ast) i).lookup v)) :=
      assignOf_eq_iff.mpr h
    have h1 : rowAssignmentRec (getVariables ast) (assignmentIndex f (getVariables ast))
        = rowAssignmentRec (getVariables ast) i := by
      calc rowAssignmentRec (getVariables ast) (assignmentIndex f (getVariables ast))
          = assignOf (getVariables ast) f := rowAssignmentRec_assignmentIndex f _
        _ = assignOf (getVariables ast)
              (fun v => jsTruthy ((rowAssignmentRec (getVariables ast) i).lookup v)) := heq
        _ = rowAssignmentRec (getVariables ast) i := hrep.symm
    exact (rowAssignmentRec_inj _ (assignmentIndex_lt f _) hi h1).symm
  · intro h
    refine assignOf_eq_iff.mp ?_
    calc assignOf (getVariables ast) f
        = rowAssignmentRec (getVariables ast) (assignmentIndex f (getVariables ast)) :=
          (rowAssignmentRec_assignmentIndex f _).symm
      _ = rowAssignmentRec (getVariables ast) i := by rw [← h]
      _ = assignOf (getVariables ast)
            (fun v => jsTruthy ((rowAssignmentRec (getVariables ast) i).lookup v)) := hrep

/-- The minterm of row `i` is satisfied by the assignment of `f`
exactly when `i` is the row index of `f`. -/
theorem dnfClause_eq_beq (ast : ASTNode) (f : String → Bool) {i : Nat}
    (hi : i < 2 ^ (getVariables ast).length) :
    ((dnfClauseOf (getVariables ast) (rowAssignment (getVariables ast) i)).all
        (evalLiteral (assignOf (getVariables ast) f)))
      = (i == assignmentIndex f (getVariables ast)) := by
  have hnd : (getVariables ast).Nodup := getVariables_nodup ast
  rw [rowAssignment_eq_rec, rowAssignmentRec_eq_assignOf _ hnd, dnfClause_matches,
    ← all_match_eq_beq ast f hi]

/-- The maxterm of row `i` is satisfied by the assignment of `f`
exactly when `i` is not the row index of `f`. -/
theorem cnfClause_eq_not_beq (ast : ASTNode) (f : String → Bool) {i : Nat}
    (hi : i < 2 ^ (getVariables ast).length) :
    ((cnfClauseOf (getVariables ast) (rowAssignment (getVariables ast) i)).any
        (evalLiteral (assignOf (getVariables ast) f)))
      = !(i == assignmentIndex f (getVariables ast)) := by
  have hnd : (getVariables ast).Nodup := getVariables_nodup ast
  rw [rowAssignment_eq_rec, rowAssignmentRec_eq_assignOf _ hnd, cnfClause_matches,
    ← all_match_eq_beq ast f hi]

/-- **C1.** For every AST and every total assignment over its canonical
variable list, the original formula evaluates to a boolean, and the
derived DNF (OR of the minterms of the true rows) and the derived CNF
(AND of the maxterms of the false rows) both evaluate to that same
boolean. -/
theorem c1_dnf_cnf_semantic_equivalence (ast : ASTNode) (f : String → Bool) :
    ∃ b : Bool,
      evaluateAST ast (assignOf (getVariables ast) f) = some b ∧
      evalDNF (assignOf (getVariables ast) f) (dnf ast) = b ∧
      evalCNF (assignOf (getVariables ast) f) (cnf ast) = b := by
  obtain ⟨b, hb⟩ := evaluateAST_assignOf_isSome ast f
  have hidx : assignmentIndex f (getVariables ast) < 2 ^ (getVariables ast).length :=
    assignmentIndex_lt f _
  have hass : rowAssignment (getVariables ast) (assignmentIndex f (getVariables ast))
      = assignOf (getVariables ast) f := by
    rw [rowAssignment_eq_rec]
    exact rowAssignmentRec_assignmentIndex f _
  have hres : rowResult ast (getVariables ast) (assignmentIndex f (getVariables ast)) = b := by
    unfold rowResult
    rw [hass, hb]
    rfl
  refine ⟨b, hb, ?_, ?_⟩
  · rw [evalDNF_dnf]
    unfold dnfClauses
    rw [any_map_general]
    refine bool_eq_of_iff ?_
    simp only [List.any_eq_true, List.mem_filter]
    constructor
    · rintro ⟨i, ⟨hil, hq⟩, hP⟩
      have hi2 : i < 2 ^ (getVariables ast).length := mem_rowIndices.mp hil
      rw [dnfClause_eq_beq ast f hi2] at hP
      have he : i = assignmentIndex f (getVariables ast) := by simpa using hP
      rw [he] at hq
      rw [← hres]
      exact hq
    · intro hbtrue
      refine ⟨assignmentIndex f (getVariables ast),
        ⟨mem_rowIndices.mpr hidx, by rw [hres]; exact hbtrue⟩, ?_⟩
      rw [dnfClause_eq_beq ast f hidx]
      simp
  · rw [evalCNF_cnf]
    unfold cnfClauses
    rw [all_map_general]
    refine bool_eq_of_iff ?_
    simp only [List.all_eq_true, List.mem_filter]
    constructor
    · intro h
      by_contra hb'
      have hbf : b = false := by
        cases b
        · rfl
        · exact absurd rfl hb'
      have hc := h (assignmentIndex f (getVariables ast))
        ⟨mem_rowIndices.mpr hidx, by rw [hres, hbf]; rfl⟩
      rw [cnfClause_eq_not_beq ast f hidx] at hc
      simp at hc
    · rintro hbtrue i ⟨hil, hnq⟩
      have hi2 : i < 2 ^ (getVariables ast).length := mem_rowIndices.mp hil
      rw [cnfClause_eq_not_beq ast f hi2]
      have hne : i ≠ assignmentIndex f (getVariables ast) := by
        intro he
        rw [he, hres, hbtrue] at hnq
        simp at hnq
      simpa using hne

theorem count_eq_one_of_mem_lawful {α : Type} [BEq α] [LawfulBEq α] {a : α} {l : List α}
    (d : l.Nodup) (h : a ∈ l) : l.count a = 1 := by
  induction l with
  | nil => simp at h
  | cons x xs ih =>
    obtain ⟨hx, hnd⟩ := List.nodup_cons.mp d
    rw [List.count_cons]
    rcases List.mem_cons.mp h with rfl | hmem
    · have hz : xs.count a = 0 := List.count_eq_zero.mpr hx
      simp [hz]
    · have hxa : ¬ (a = x) := fun he => hx (he ▸ hmem)
      have hxa' : ¬ (x = a) := fun he => hxa he.symm
      simp [ih hnd hmem, hxa, hxa']

/-- **C2.** The enumerator produces exactly `2 ^ n` rows, one per index
`i` from `2 ^ n - 1` down to `0` (row `k` of the table is row index
`2 ^ n - 1 - k`); in each row the variable at list position `j` is
assigned bit `n - j - 1` of `i`; every row assignment is total over the
variable list; and every combination occurs exactly once. -/
theorem c2_truth_table_enumeration (ast : ASTNode) :
    (truthTable ast).length = 2 ^ (getVariables ast).length ∧
    (∀ k, k < 2 ^ (getVariables ast).length →
      (truthTable ast)[k]? =
        some (rowAssignment (getVariables ast) (2 ^ (getVariables ast).length - 1 - k),
          rowResult ast (getVariables ast) (2 ^ (getVariables ast).length - 1 - k))) ∧
    (∀ (i j : Nat) (hj : j < (getVariables ast).length),
      (rowAssignment (getVariables ast) i)[j]? =
        some ((getVariables ast).get ⟨j, hj⟩,
          i.testBit ((getVariables ast).length - j - 1))) ∧
    (∀ i : Nat, (rowAssignment (getVariables ast) i).map Prod.fst = getVariables ast) ∧
    (∀ f : String → Bool,
      ((truthTable ast).map Prod.fst).count (assignOf (getVariables ast) f) = 1) := by
  refine ⟨?_, ?_, ?_, ?_, ?_⟩
  · simp [truthTable, rowIndices]
  · intro k hk
    simp only [truthTable]
    rw [List.getElem?_map]
    have h1 : (rowIndices (getVariables ast).length)[k]? =
        some (2 ^ (getVariables ast).length - 1 - k) := by
      unfold rowIndices
      rw [List.getElem?_reverse (by simpa using hk)]
      simp only [List.length_range]
      rw [List.getElem?_range (by omega)]
    rw [h1]
    rfl
  · intro i j hj
    unfold rowAssignment
    rw [List.getElem?_map, List.getElem?_enum, List.getElem?_eq_getElem hj]
    simp [boolBit_eq_testBit, List.get_eq_getElem]
  · intro i
    rw [rowAssignment_eq_rec]
    exact rowAssignmentRec_keys _ i
  · intro f
    have hmapfst : (truthTable ast).map Prod.fst
        = (rowIndices (getVariables ast).length).map
            (fun i => rowAssignment (getVariables ast) i) := by
      simp [truthTable, List.map_map, Function.comp]
    rw [hmapfst]
    apply count_eq_one_of_mem_lawful
    · refine List.Nodup.map_on ?_ (rowIndices_nodup _)
      intro x hx y hy hxy
      rw [rowAssignment_eq_rec, rowAssignment_eq_rec] at hxy
      exact rowAssignmentRec_inj _ (mem_rowIndices.mp hx) (mem_rowIndices.mp hy) hxy
    · refine List.mem_map.mpr
        ⟨assignmentIndex f (getVariables ast),
          mem_rowIndices.mpr (assignmentIndex_lt f _), ?_⟩
      rw [rowAssignment_eq_rec]
      exact rowAssignmentRec_assignmentIndex f _

/-- Witness for C2 at the concrete formula `A | B`. -/
theorem c2_truth_table_enumeration_witness :
    (truthTable (ASTNode.or (.var "A") (.var "B"))).length
        = 2 ^ (getVariables (ASTNode.or (.var "A") (.var "B"))).length ∧
    (truthTable (ASTNode.or (.var "A") (.var "B")))[0]? =
      some (rowAssignment (getVariables (ASTNode.or (.var "A") (.var "B")))
          (2 ^ (getVariables (ASTNode.or (.var "A") (.var "B"))).length - 1 - 0),
        rowResult (ASTNode.or (.var "A") (.var "B"))
          (getVariables (ASTNode.or (.var "A") (.var "B")))
          (2 ^ (getVariables (ASTNode.or (.var "A") (.var "B"))).length - 1 - 0)) ∧
    ((truthTable (ASTNode.or (.var "A") (.var "B"))).map Prod.fst).count
        (assignOf (getVariables (ASTNode.or (.var "A") (.var "B"))) fun _ => true) = 1 := by
  have h := c2_truth_table_enumeration (ASTNode.or (.var "A") (.var "B"))
  exact ⟨h.1, h.2.1 0 (Nat.pos_pow_of_pos _ (by omega)), h.2.2.2.2 _⟩

/-- **C3.** The DNF clause count equals the number of true rows, the
CNF clause count the number of false rows, and the two counts sum to
`2 ^ n`. -/
theorem c3_clause_counts (ast : ASTNode) :
    (dnfClauses ast).length = ((truthTable ast).filter fun r => r.2).length ∧
    (cnfClauses ast).length = ((truthTable ast).filter fun r => !r.2).length ∧
    (dnfClauses ast).length + (cnfClauses ast).length
      = 2 ^ (getVariables ast).length := by
  have hd : (dnfClauses ast).length
      = ((rowIndices (getVariables ast).length).filter
          (rowResult ast (getVariables ast))).length := by
    simp [dnfClauses]
  have hc : (cnfClauses ast).length
      = ((rowIndices (getVariables ast).length).filter
          fun i => !(rowResult ast (getVariables ast) i)).length := by
    simp [cnfClauses]
  have htt : ∀ p : Bool → Bool,
      (truthTable ast).filter (fun r => p r.2)
        = ((rowIndices (getVariables ast).length).filter
            (fun i => p (rowResult ast (getVariables ast) i))).map
            (fun i => (rowAssignment (getVariables ast) i,
              rowResult ast (getVariables ast) i)) := by
    intro p
    simp only [truthTable]
    rw [List.filter_map]
    rfl
  refine ⟨?_, ?_, ?_⟩
  · rw [hd, htt (fun b => b), List.length_map]
  · rw [hc, htt (fun b => !b), List.length_map]
  · rw [hd, hc, ← rowIndices_length (getVariables ast).length]
    exact (List.length_eq_length_filter_add _).symm

/-- **C8.** A formula with no true row derives the sentinel `False`
DNF, one with no false row the sentinel `True` CNF; otherwise each
normal form is the non-empty join of its clauses. -/
theorem c8_sentinel_normal_forms (ast : ASTNode) :
    ((∀ r ∈ truthTable ast, r.2 = false) → dnf ast = NF.sentinelFalse) ∧
    ((∀ r ∈ truthTable ast, r.2 = true) → cnf ast = NF.sentinelTrue) ∧
    ((∃ r ∈ truthTable ast, r.2 = true) →
      dnf ast = NF.clauses (dnfClauses ast) ∧ dnfClauses ast ≠ []) ∧
    ((∃ r ∈ truthTable ast, r.2 = false) →
      cnf ast = NF.clauses (cnfClauses ast) ∧ cnfClauses ast ≠ []) := by
  have hmem : ∀ i ∈ rowIndices (getVariables ast).length,
      (rowAssignment (getVariables ast) i, rowResult ast (getVariables ast) i)
        ∈ truthTable ast := by
    intro i hi
    simp only [truthTable]
    exact List.mem_map.mpr ⟨i, hi, rfl⟩
  refine ⟨?_, ?_, ?_, ?_⟩
  · intro h
    have hfil : (rowIndices (getVariables ast).length).filter
        (rowResult ast (getVariables ast)) = [] := by
      rw [List.filter_eq_nil]
      intro i hi
      have := h _ (hmem i hi)
      simp_all
    have : dnfClauses ast = [] := by simp [dnfClauses, hfil]
    simp [dnf, this]
  · intro h
    have hfil : (rowIndices (getVariables ast).length).filter
        (fun i => !(rowResult ast (getVariables ast) i)) = [] := by
      rw [List.filter_eq_nil]
      intro i hi
      have := h _ (hmem i hi)
      simp_all
    have : cnfClauses ast = [] := by simp [cnfClauses, hfil]
    simp [cnf, this]
  · rintro ⟨r, hr, htrue⟩
    simp only [truthTable] at hr
    obtain ⟨i, hi, rfl⟩ := List.mem_map.mp hr
    have hifil : i ∈ (rowIndices (getVariables ast).length).filter
        (rowResult ast (getVariables ast)) :=
      List.mem_filter.mpr ⟨hi, htrue⟩
    have hne : dnfClauses ast ≠ [] := by
      simp only [dnfClauses]
      intro hcon
      rw [List.map_eq_nil] at hcon
      rw [hcon] at hifil
      simp at hifil
    refine ⟨?_, hne⟩
    have : 0 < (dnfClauses ast).length := List.length_pos.mpr hne
    simp [dnf, this]
  · rintro ⟨r, hr, hfalse⟩
    simp only [truthTable] at hr
    obtain ⟨i, hi, rfl⟩ := List.mem_map.mp hr
    have hifil : i ∈ (rowIndices (getVariables ast).length).filter
        (fun i => !(rowResult ast (getVariables ast) i)) :=
      List.mem_filter.mpr ⟨hi, by simpa using hfalse⟩
    have hne : cnfClauses ast ≠ [] := by
      simp only [cnfClauses]
      intro hcon
      rw [List.map_eq_nil] at hcon
      rw [hcon] at hifil
      simp at hifil
    refine ⟨?_, hne⟩
    have : 0 < (cnfClauses ast).length := List.length_pos.mpr hne
    simp [cnf, this]

/-- Witness for C8 at the concrete formula `A` (one true row, one
false row). -/
theorem c8_sentinel_normal_forms_witness :
    (dnf (ASTNode.var "A") = NF.clauses (dnfClauses (.var "A")) ∧
      dnfClauses (ASTNode.var "A") ≠ []) ∧
    (cnf (ASTNode.var "A") = NF.clauses (cnfClauses (.var "A")) ∧
      cnfClauses (ASTNode.var "A") ≠ []) := by
  have h := c8_sentinel_normal_forms (ASTNode.var "A")
  exact ⟨h.2.2.1 ⟨([("A", true)], true), by decide⟩,
    h.2.2.2 ⟨([("A", false)], false), by decide⟩⟩

/-- **C4** (code bug).  `generateTableAndNF` performs no check of the
distinct-variable count: there is no bound and no
`TooManyVariablesError` anywhere in the source, and enumeration is
attempted for every parsed input.  For a formula with 64 distinct
variables the enumerator's contract produces `2 ^ 64` rows. -/
theorem c4_enumeration_unbounded :
    (getVariables ast64).length = 64 ∧
    (truthTable ast64).length = 2 ^ 64 := by
  have h : (getVariables ast64).length = 64 := by decide
  refine ⟨h, ?_⟩
  simp [truthTable, rowIndices, h]

/-- Counterexample to **C5**: evaluating a variable absent from the
assignment returns the value `undefined` (modelled as `none`), falsy
under truthiness — the evaluator does not fail with any error. -/
theorem c5_unbound_variable_returns_undefined :
    evaluateAST (.var "A") [] = none ∧
    jsTruthy (evaluateAST (.var "A") []) = false :=
  ⟨rfl, rfl⟩

/-- **C5** (amended).  A variable absent from the assignment makes the
evaluator return `undefined` (a value, not an `UnboundVariableError`);
when the assignment is built from the Variable Collector's output,
every referenced variable is bound and evaluation returns a genuine
boolean. -/
theorem c5_amended_unbound_lookup_is_undefined :
    (∀ (name : String) (asg : Assignment), asg.lookup name = none →
      evaluateAST (.var name) asg = none) ∧
    (∀ (ast : ASTNode) (f : String → Bool),
      ∃ b : Bool, evaluateAST ast (assignOf (getVariables ast) f) = some b) := by
  refine ⟨?_, evaluateAST_assignOf_isSome⟩
  intro name asg h
  simpa [evaluateAST] using h

/-- Witness for the amended C5 at a concrete unbound variable. -/
theorem c5_amended_unbound_lookup_is_undefined_witness :
    ([("B", true)] : Assignment).lookup "A" = none ∧
    evaluateAST (.var "A") [("B", true)] = none :=
  ⟨by decide, c5_amended_unbound_lookup_is_undefined.1 "A" [("B", true)] (by decide)⟩

/-- **C6** (code bug).  The tokenizer accepts the synonym characters
`!`, `¬`, `∧`, `∨` as `Operator` tokens carrying the raw character,
but the parser matches operator tokens by exact value (`~`, `&`, `|`),
so each synonym input fails with a `ParseError` where its canonical
spelling parses. -/
theorem c6_synonyms_tokenize_but_fail_to_parse :
    tokenize "!A" = .ok [.operator "!", .tvar "A"] ∧
    tokenize "¬A" = .ok [.operator "¬", .tvar "A"] ∧
    tokenize "A∧B" = .ok [.tvar "A", .operator "∧", .tvar "B"] ∧
    tokenize "A∨B" = .ok [.tvar "A", .operator "∨", .tvar "B"] ∧
    pipelineAST "~A" = .ok (.not (.var "A")) ∧
    pipelineAST "A&B" = .ok (.and (.var "A") (.var "B")) ∧
    pipelineAST "A|B" = .ok (.or (.var "A") (.var "B")) ∧
    pipelineAST "!A" = .error (.parse (.unexpectedToken (.operator "!"))) ∧
    pipelineAST "¬A" = .error (.parse (.unexpectedToken (.operator "¬"))) ∧
    pipelineAST "A∧B" = .error (.parse (.unexpectedToken (.operator "∧"))) ∧
    pipelineAST "A∨B" = .error (.parse (.unexpectedToken (.operator "∨"))) :=
  ⟨rfl, rfl, rfl, rfl, rfl, rfl, rfl, rfl, rfl, rfl, rfl⟩

/-- **C7.**  The parser realizes the five-level precedence grammar:
`~` is prefix and right-associative (`~~A` is `Not (Not (Var A))`),
each binary connective is left-associative, the levels loosen in the
order `~`, `&`, `|`, `->`, `<->`, and a parenthesized sub-expression
re-enters at the `equiv` level, overriding precedence. -/
theorem c7_parser_precedence (a b c : String) :
    parseExpression [.operator "~", .operator "~", .tvar a]
      = .ok (.not (.not (.var a))) ∧
    parseExpression [.tvar a, .operator "&", .tvar b, .operator "&", .tvar c]
      = .ok (.and (.and (.var a) (.var b)) (.var c)) ∧
    parseExpression [.tvar a, .operator "|", .tvar b, .operator "|", .tvar c]
      = .ok (.or (.or (.var a) (.var b)) (.var c)) ∧
    parseExpression [.tvar a, .operator "->", .tvar b, .operator "->", .tvar c]
      = .ok (.implies (.implies (.var a) (.var b)) (.var c)) ∧
    parseExpression [.tvar a, .operator "<->", .tvar b, .operator "<->", .tvar c]
      = .ok (.equiv (.equiv (.var a) (.var b)) (.var c)) ∧
    parseExpression [.operator "~", .tvar a, .operator "&", .tvar b]
      = .ok (.and (.not (.var a)) (.var b)) ∧
    parseExpression [.tvar a, .operator "|", .tvar b, .operator "&", .tvar c]
      = .ok (.or (.var a) (.and (.var b) (.var c))) ∧
    parseExpression [.tvar a, .operator "->", .tvar b, .operator "|", .tvar c]
      = .ok (.implies (.var a) (.or (.var b) (.var c))) ∧
    parseExpression [.tvar a, .operator "<->", .tvar b, .operator "->", .tvar c]
      = .ok (.equiv (.var a) (.implies (.var b) (.var c))) ∧
    parseExpression
        [.paren "(", .tvar a, .operator "|", .tvar b, .paren ")", .operator "&", .tvar c]
      = .ok (.and (.or (.var a) (.var b)) (.var c)) ∧
    parseExpression
        [.paren "(", .tvar a, .operator "<->", .tvar b, .paren ")", .operator "&", .tvar c]
      = .ok (.and (.equiv (.var a) (.var b)) (.var c)) :=
  ⟨rfl, rfl, rfl, rfl, rfl, rfl, rfl, rfl, rfl, rfl, rfl⟩

theorem hasVar_all (ast : ASTNode) : hasVar ast = true := by
  induction ast <;> simp_all [hasVar]

/-- **C9.**  Every AST produced by the parser contains a `var` leaf
(the AST shape transcribed from the source has no constant node), so
its canonical variable list is non-empty and its truth table has at
least two rows. -/
theorem c9_parsed_ast_has_variable (ts : List Token) (ast : ASTNode)
    (h : parseExpression ts = .ok ast) :
    hasVar ast = true ∧ getVariables ast ≠ [] ∧ 2 ≤ (truthTable ast).length := by
  refine ⟨hasVar_all ast, getVariables_ne_nil ast, ?_⟩
  have hlen : 1 ≤ (getVariables ast).length := by
    cases hv : getVariables ast with
    | nil => exact absurd hv (getVariables_ne_nil ast)
    | cons x xs => simp
  calc 2 = 2 ^ 1 := rfl
    _ ≤ 2 ^ (getVariables ast).length := Nat.pow_le_pow_right (by omega) hlen
    _ = (truthTable ast).length := by simp [truthTable, rowIndices]

/-- Witness for C9 at the one-token input `A`. -/
theorem c9_parsed_ast_has_variable_witness :
    hasVar (.var "A") = true ∧ getVariables (.var "A") ≠ [] ∧
      2 ≤ (truthTable (ASTNode.var "A")).length :=
  c9_parsed_ast_has_variable [.tvar "A"] (.var "A") rfl

theorem tokenizeAux_whitespace :
    ∀ (cs : List Char) (fuel i : Nat), cs.length < fuel →
      (∀ c ∈ cs, jsWhitespace c = true) →
      tokenizeAux fuel cs i = .ok [] := by
  intro cs
  induction cs with
  | nil =>
    intro fuel i hf _
    cases fuel with
    | zero => omega
    | succ f => rfl
  | cons c cs ih =>
    intro fuel i hf hws
    cases fuel with
    | zero => omega
    | succ f =>
      have hc : jsWhitespace c = true := hws c (List.mem_cons_self c cs)
      simp only [tokenizeAux, hc, if_true]
      exact ih f (i + 1) (by simpa using hf)
        fun c' hc' => hws c' (List.mem_cons_of_mem _ hc')

/-- **C10.**  A string of whitespace only (the empty string included)
tokenizes to the empty token sequence; the parser then fails with the
unexpected-end-of-input `ParseError`, so blank input is rejected with
a `ParseError` and never a `LexError`. -/
theorem c10_blank_input_parse_error (s : String)
    (h : ∀ c ∈ s.data, jsWhitespace c = true) :
    tokenize s = .ok [] ∧
    parseExpression [] = .error .unexpectedEndOfInput ∧
    pipelineAST s = .error (.parse .unexpectedEndOfInput) := by
  have ht : tokenize s = .ok [] :=
    tokenizeAux_whitespace s.data _ 0 (by omega) h
  refine ⟨ht, rfl, ?_⟩
  unfold pipelineAST
  rw [ht]
  rfl

/-- Witness for C10 at the concrete input of two spaces. -/
theorem c10_blank_input_parse_error_witness :
    (∀ c ∈ ("  " : String).data, jsWhitespace c = true) ∧
    pipelineAST "  " = .error (.parse .unexpectedEndOfInput) :=
  ⟨by decide, (c10_blank_input_parse_error "  " (by decide)).2.2⟩

end CnfDnfCalc
